import Mathlib

/-!
Shallow embedding of the `@wgtechlabs/secrets-engine` TypeScript SDK
(`src/glob.ts`, `src/crypto.ts`, `src/integrity.ts`, `src/platform.ts`,
`src/store.ts`, `src/engine.ts`, `src/errors.ts`, `src/types.ts`) together
with theorems settling the frozen specification claims.

Conventions used throughout:
* machine bytes are `Nat` lists (each entry morally `< 256`);
* the AES-256-GCM primitive of `node:crypto` (an external library, not code
  of this repository) is modelled symbolically: a genuine ciphertext blob
  remembers the key, the IV and the plaintext that produced it, and
  authentication succeeds exactly on a genuine blob decrypted under the same
  key and IV.  For the byte-level claims about `crypto.ts`'s `decrypt`, a
  concrete executable cipher with the same interface properties is used;
* fallible TypeScript code (functions that may `throw`) is embedded with
  `Except`/`Option` results;
* stateful engine methods are pure state transformers that additionally
  return the list of I/O `Event`s they perform, in program order, so that
  checkpoint-ordering claims are statable.
-/

namespace SecretsEngineModel

/-! ## Glob matcher (`src/glob.ts`)

`matchGlob` builds a JavaScript regular expression from the pattern:

  `pattern.replace(/[.+^${}()|[\]\\]/g, "\\$&").replace(/\*/g, "[^.]*")`

wrapped in `^...$`, and tests the key against it.  Every pattern character in
the escape class, and every character that is not special in a regex, becomes
a literal atom; `*` becomes the atom `[^.]*`.  The character `?` is *not* in
the escape class, so it reaches the regex compiler as a quantifier: applied
to a preceding unquantified literal it makes it optional, applied to an
already quantified atom it makes the quantifier lazy (same recognised
language), and with nothing to repeat `new RegExp` throws a `SyntaxError`.
A thrown `SyntaxError` is modelled as `none`. -/

/-- Atom of the anchored regular expression produced by `matchGlob`:
a literal character, the wildcard `[^.]*`, or an optional literal `c?`. -/
inductive GlobAtom where
  | lit (c : Char)
  | star
  | opt (c : Char)
deriving DecidableEq

/-- Compile the glob pattern into regex atoms.  The `Nat` argument tracks the
state of the previous token: `0` = nothing yet, `1` = unquantified literal,
`2` = quantified atom (`[^.]*` or `c?`), `3` = lazily quantified atom.
Returns `none` when `new RegExp` would throw (`?` with nothing to repeat, or
a third quantifier character in a row). -/
def compileGlobAux (acc : List GlobAtom) (st : Nat) : List Char → Option (List GlobAtom)
  | [] => some acc
  | c :: cs =>
    if c = '*' then compileGlobAux (acc ++ [GlobAtom.star]) 2 cs
    else if c = '?' then
      match st, acc.getLast? with
      | 1, some (GlobAtom.lit d) => compileGlobAux (acc.dropLast ++ [GlobAtom.opt d]) 2 cs
      | 2, _ => compileGlobAux acc 3 cs
      | _, _ => none
    else compileGlobAux (acc ++ [GlobAtom.lit c]) 1 cs

/-- Compile a whole pattern (model of building the `RegExp` in `matchGlob`). -/
def compileGlob (pattern : String) : Option (List GlobAtom) :=
  compileGlobAux [] 0 pattern.toList

/-- Matching of the atom `[^.]*` followed by a continuation: the wildcard
absorbs a possibly-empty prefix of non-`.` characters and hands the rest to
the continuation. -/
def starRun (cont : List Char → Bool) : List Char → Bool
  | [] => cont []
  | k :: ks => cont (k :: ks) || (!(k == '.') && starRun cont ks)

/-- Anchored matching of the compiled atoms against the key, i.e. the meaning
of `regex.test(key)` for the regexes `matchGlob` constructs. -/
def globAtomsMatch : List GlobAtom → List Char → Bool
  | [], ks => ks.isEmpty
  | GlobAtom.lit c :: as, ks =>
      match ks with
      | [] => false
      | k :: ks => c == k && globAtomsMatch as ks
  | GlobAtom.opt c :: as, ks =>
      globAtomsMatch as ks ||
        (match ks with
         | [] => false
         | k :: ks => c == k && globAtomsMatch as ks)
  | GlobAtom.star :: as, ks => starRun (globAtomsMatch as) ks

/-- Model of `matchGlob(pattern, key)`.  `none` models the `SyntaxError`
thrown by `new RegExp` on a malformed translated pattern. -/
def matchGlob (pattern key : String) : Option Bool :=
  (compileGlob pattern).map (fun atoms => globAtomsMatch atoms key.toList)

/-- Model of `filterKeys(keys, pattern)`. -/
def filterKeys (keys : List String) (pattern : String) : Option (List String) :=
  (compileGlob pattern).map
    (fun atoms => keys.filter (fun k => globAtomsMatch atoms k.toList))

/-- The pattern semantics claimed by the specification: the key is obtained
from the pattern by replacing each `*` with a possibly-empty run of
characters not containing `.`, all other pattern characters matching
literally, anchored at both ends. -/
inductive GlobSpec : List Char → List Char → Prop where
  | nil : GlobSpec [] []
  | lit {c : Char} {ps ks : List Char} (hc : c ≠ '*') (h : GlobSpec ps ks) :
      GlobSpec (c :: ps) (c :: ks)
  | star {ps ks : List Char} (run : List Char) (hrun : ∀ c ∈ run, c ≠ '.')
      (h : GlobSpec ps ks) : GlobSpec ('*' :: ps) (run ++ ks)

/-- Atoms of a `?`-free pattern: `*` becomes the wildcard atom, every other
character a literal atom. -/
def toAtoms (ps : List Char) : List GlobAtom :=
  ps.map (fun c => if c = '*' then GlobAtom.star else GlobAtom.lit c)

/-! ## JavaScript default string ordering

`engine.ts` sorts key names with `Array.prototype.sort()` and no comparator.
The ECMAScript default comparator orders strings lexicographically by UTF-16
code units.  Lean's own `String` order compares Unicode code points, which
differs on supplementary-plane characters, so the UTF-16 unit sequence is
modelled explicitly. -/

/-- UTF-16 code units of one Unicode scalar value (surrogate pair above
`U+FFFF`). -/
def utf16Units (c : Char) : List Nat :=
  if c.toNat < 0x10000 then [c.toNat]
  else [0xD800 + (c.toNat - 0x10000) / 0x400, 0xDC00 + (c.toNat - 0x10000) % 0x400]

/-- UTF-16 code-unit sequence of a string. -/
def utf16 (s : String) : List Nat :=
  s.toList.foldr (fun c acc => utf16Units c ++ acc) []

/-- Lexicographic order on code-unit sequences. -/
def lexLe : List Nat → List Nat → Bool
  | [], _ => true
  | _ :: _, [] => false
  | a :: as, b :: bs => decide (a < b) || (a == b && lexLe as bs)

/-- The ECMAScript default string comparison used by `Array.prototype.sort()`:
UTF-16 code-unit lexicographic order. -/
def jsStringLe (a b : String) : Bool :=
  lexLe (utf16 a) (utf16 b)

/-- Propositional form of `jsStringLe`, the sort relation of `keys()`. -/
def JsLe (a b : String) : Prop := jsStringLe a b = true

instance : DecidableRel JsLe := fun a b => by
  unfold JsLe; infer_instance

/-- Lexicographic comparison of Unicode scalar-value sequences. -/
def cpLexLe : List Char → List Char → Bool
  | [], _ => true
  | _ :: _, [] => false
  | a :: as, b :: bs => decide (a.toNat < b.toNat) || (a == b && cpLexLe as bs)

/-- Code-point order on strings, the order named by the specification for the
result of `keys()`. -/
def CodePointLe (a b : String) : Prop := cpLexLe a.toList b.toList = true

instance : DecidableRel CodePointLe := fun a b => by
  unfold CodePointLe; infer_instance

/-! ## Symbolic AES-256-GCM blobs (engine level)

`crypto.ts`'s `encrypt` draws a fresh 12-byte IV and returns the AES-256-GCM
ciphertext with the 16-byte auth tag appended; `decrypt` splits the tag off
and authenticates.  At the engine level the primitive is modelled
symbolically: a genuine blob records the key, IV and plaintext used, and
authentication succeeds exactly when the same key and IV are supplied. -/

/-- A `ciphertext ‖ auth-tag` buffer: either the genuine output of `encrypt`
or arbitrary bytes. -/
inductive Blob where
  | sealed (key : Nat) (iv : Nat) (plain : String)
  | junk (bytes : List Nat)
deriving DecidableEq

/-- Byte length of a blob.  A genuine AES-GCM blob is the ciphertext of the
UTF-8 plaintext (same length) plus the 16-byte tag. -/
def blobLen : Blob → Nat
  | Blob.sealed _ _ p => p.utf8ByteSize + 16
  | Blob.junk bs => bs.length

/-- Error data of `errors.ts`'s `DecryptionError` as observed by callers:
the formatted message and the (full) key hash stored on the error. -/
structure DecErr where
  msg : String
  keyHash : Option String
deriving DecidableEq

/-- Model of `crypto.ts decrypt(masterKey, iv, ciphertext, keyHash?)` on
symbolic blobs: reject buffers shorter than the 16-byte tag, then
authenticate; a genuine blob under the same key and IV yields its plaintext.
The final `Buffer.toString("utf-8")` of the Node implementation is total
(it never throws), so it introduces no further error case. -/
def decryptBlob (masterKey iv : Nat) (ciphertext : Blob) (keyHash : Option String) :
    Except DecErr String :=
  if blobLen ciphertext < 16 then
    Except.error ⟨"Ciphertext too short to contain auth tag", keyHash⟩
  else
    match ciphertext with
    | Blob.sealed k i p =>
        if k = masterKey ∧ i = iv then Except.ok p
        else Except.error ⟨"Unsupported state or unable to authenticate data", keyHash⟩
    | Blob.junk _ =>
        Except.error ⟨"Unsupported state or unable to authenticate data", keyHash⟩

/-- Payload returned by `crypto.ts encrypt`: the fresh IV and the
tag-carrying ciphertext, kept separate for distinct database columns. -/
structure EncPayload where
  iv : Nat
  ciphertext : Blob
deriving DecidableEq

/-- Model of `crypto.ts encrypt(masterKey, plaintext)`; `freshIv` stands for
the 12 random bytes drawn from the CSPRNG. -/
def encrypt (masterKey : Nat) (plaintext : String) (freshIv : Nat) : EncPayload :=
  ⟨freshIv, Blob.sealed masterKey freshIv plaintext⟩

/-- Model of `crypto.ts hmac(masterKey, data)` for key-name hashing: an
injective keyed digest (symbolic model of HMAC-SHA256 hex output). -/
def hmac (masterKey : Nat) (data : String) : String :=
  toString masterKey ++ ":" ++ data

/-- Model of `integrity.ts`'s seal value
`hmac(masterKey, sha256(fileBytes(store.db)))`; the database file bytes are
abstracted to a `Nat`. -/
def sealOf (masterKey dbBytes : Nat) : String :=
  "hmac-sha256:" ++ toString masterKey ++ ":" ++ toString dbBytes

/-! ## Byte-level model of `crypto.ts decrypt` (for the exact error contract)

For the claims about `decrypt`'s error conditions the blob abstraction is too
coarse: the `< 16` byte length test and the tag comparison act on raw bytes.
Here AES-256-GCM is given a concrete executable stand-in with the interface
properties the SDK relies on: the body transform is a bijection on byte
sequences determined by the key, and the 16-byte tag is a function of the
key, the IV and the ciphertext body, so that verification succeeds exactly
on genuinely produced ciphertexts.  The internal structure of the real cipher is
irrelevant to the claims settled with this model. -/

/-- Stand-in keystream encryption of the body bytes (a key-determined
bijection on bytes, like CTR-mode AES). -/
def gcmEncBytes (key : Nat) (plain : List Nat) : List Nat :=
  plain.map (fun b => (b + key) % 256)

/-- Inverse of `gcmEncBytes` on byte values `< 256`. -/
def gcmDecBytes (key : Nat) (body : List Nat) : List Nat :=
  body.map (fun b => (b + 256 - key % 256) % 256)

/-- Stand-in 16-byte authentication tag over key, IV and ciphertext body. -/
def gcmTagBytes (key : Nat) (iv body : List Nat) : List Nat :=
  (List.range 16).map (fun i => (key + 31 * iv.sum + 7 * body.sum + i) % 256)

/-- Message formatting of `errors.ts`'s `DecryptionError` constructor: the
key hash is truncated to its first 16 characters (`keyHash.slice(0, 16)`),
and the plaintext never enters the message. -/
def decryptionErrorMessage (msg : String) (keyHash : Option String) : String :=
  "Decryption failed" ++
    (match keyHash with
     | some kh => " (entry: " ++ (kh.take 16) ++ "…)"
     | none => "") ++ ": " ++ msg

/-- Byte-level model of `crypto.ts decrypt`: reject ciphertexts shorter than
the 16-byte auth tag, split the tag off, authenticate, and return the
decrypted plaintext bytes.  Node's trailing `Buffer.toString("utf-8")` is a
total, lossy decoding (invalid sequences become U+FFFD, no exception), so it
adds no error case and is not modelled beyond the byte level. -/
def decryptBytes (masterKey : Nat) (iv ciphertext : List Nat) (keyHash : Option String) :
    Except DecErr (List Nat) :=
  if ciphertext.length < 16 then
    Except.error ⟨decryptionErrorMessage "Ciphertext too short to contain auth tag" keyHash,
      keyHash⟩
  else
    let authTag := ciphertext.drop (ciphertext.length - 16)
    let encrypted := ciphertext.take (ciphertext.length - 16)
    if authTag = gcmTagBytes masterKey iv encrypted then
      Except.ok (gcmDecBytes masterKey encrypted)
    else
      Except.error ⟨decryptionErrorMessage "Unsupported state or unable to authenticate data"
        keyHash, keyHash⟩

/-- RFC 3629 UTF-8 validity of a byte sequence (the notion named by the
specification's "invalid UTF-8" failure condition). -/
def validUtf8 : List Nat → Bool
  | [] => true
  | b :: bs =>
    if b < 0x80 then validUtf8 bs
    else if 0xC2 ≤ b ∧ b ≤ 0xDF then
      match bs with
      | b1 :: rest => (0x80 ≤ b1 && b1 ≤ 0xBF) && validUtf8 rest
      | _ => false
    else if 0xE0 ≤ b ∧ b ≤ 0xEF then
      match bs with
      | b1 :: b2 :: rest =>
          (decide (0x80 ≤ b1) && decide (b1 ≤ 0xBF) &&
           decide (0x80 ≤ b2) && decide (b2 ≤ 0xBF) &&
           !(b == 0xE0 && b1 < 0xA0) && !(b == 0xED && 0xA0 ≤ b1)) && validUtf8 rest
      | _ => false
    else if 0xF0 ≤ b ∧ b ≤ 0xF4 then
      match bs with
      | b1 :: b2 :: b3 :: rest =>
          (decide (0x80 ≤ b1) && decide (b1 ≤ 0xBF) &&
           decide (0x80 ≤ b2) && decide (b2 ≤ 0xBF) &&
           decide (0x80 ≤ b3) && decide (b3 ≤ 0xBF) &&
           !(b == 0xF0 && b1 < 0x90) && !(b == 0xF4 && 0x90 ≤ b1)) && validUtf8 rest
      | _ => false
    else false

/-- The failure condition "ciphertext shorter than 16 bytes". -/
def CtTooShort (ciphertext : List Nat) : Prop := ciphertext.length < 16

/-- The failure condition "AEAD auth tag fails to verify" (only meaningful
once the tag is present). -/
def TagFails (masterKey : Nat) (iv ciphertext : List Nat) : Prop :=
  ¬ ciphertext.length < 16 ∧
    ciphertext.drop (ciphertext.length - 16) ≠
      gcmTagBytes masterKey iv (ciphertext.take (ciphertext.length - 16))

/-- The failure condition claimed for "decrypted bytes are not valid UTF-8". -/
def PlainInvalidUtf8 (masterKey : Nat) (ciphertext : List Nat) : Prop :=
  validUtf8 (gcmDecBytes masterKey (ciphertext.take (ciphertext.length - 16))) = false

instance (ciphertext : List Nat) : Decidable (CtTooShort ciphertext) := by
  unfold CtTooShort; infer_instance

instance (masterKey : Nat) (iv ciphertext : List Nat) :
    Decidable (TagFails masterKey iv ciphertext) := by
  unfold TagFails; infer_instance

instance (masterKey : Nat) (ciphertext : List Nat) :
    Decidable (PlainInvalidUtf8 masterKey ciphertext) := by
  unfold PlainInvalidUtf8; infer_instance

/-! ## Row store (`src/store.ts`)

The SQLite `secrets` table keyed by its `key_hash` TEXT PRIMARY KEY is
modelled as an association list with unique keys; `upsert` implements the
`INSERT ... ON CONFLICT(key_hash) DO UPDATE` statement, `findByHash` the
point `SELECT`, and `deleteByHash` the point `DELETE` (whose result reports
whether a row was removed).  The `created`/`updated` timestamps play no role
in any claim and are omitted from the row model. -/

/-- Lookup by primary key (first occurrence; the key is unique in every
state the model constructs, as it is a SQLite PRIMARY KEY / `Map` key). -/
def alLookup {β : Type} : List (String × β) → String → Option β
  | [], _ => none
  | p :: rest, k => if p.1 = k then some p.2 else alLookup rest k

/-- Primary-key membership test. -/
def alHas {β : Type} : List (String × β) → String → Bool
  | [], _ => false
  | p :: rest, k => p.1 = k || alHas rest k

/-- Upsert semantics of the `ON CONFLICT DO UPDATE` statement (and of
JavaScript `Map.set`): replace the payload of the (unique) entry carrying
the key in place, append a fresh entry if the key is absent. -/
def alUpsert {β : Type} : List (String × β) → String → β → List (String × β)
  | [], k, v => [(k, v)]
  | p :: rest, k, v => if p.1 = k then (k, v) :: rest else p :: alUpsert rest k v

/-- Point deletion by key (`DELETE FROM secrets WHERE key_hash = ?` /
`Map.delete`). -/
def alErase {β : Type} (l : List (String × β)) (k : String) : List (String × β) :=
  l.filter (fun p => ¬ p.1 = k)

/-- A row of the `secrets` table.  In the database `key_enc` is the single
BLOB `12-byte IV ‖ ciphertext ‖ tag` packed by `Buffer.concat`; since the IV
prefix has fixed length 12, packing and the `subarray(0, 12)` /
`subarray(12)` unpacking of `buildKeyIndex` are modelled exactly by keeping
the two components as a pair. -/
structure Row where
  key_enc_iv : Nat
  key_enc_ct : Blob
  iv : Nat
  cipher : Blob
deriving DecidableEq

/-! ## Integrity sealer (`src/integrity.ts`) and meta document -/

/-- Filesystem and database effects relevant to the checkpoint-discipline
claims, emitted by the engine models in program order. -/
inductive Event where
  | checkpoint
  | readDbFile
  | writeMetaFile
  | readMetaFile
  | dbUpsert
  | dbDelete
  | dbFindAll
  | dbClose
deriving DecidableEq

/-- The observable content of `meta.json` as handed to `JSON.parse`: absent
file, unparseable text, or a parsed object with its three (optional)
fields. -/
inductive MetaRaw where
  | absent
  | invalidJson (raw : String)
  | parsed (salt : Option String) (version : Option String) (integrity : Option String)
deriving DecidableEq

/-- Engine-visible error: stable `code` plus message. -/
structure EngineError where
  code : String
  msg : String
deriving DecidableEq

/-- Constructor model for `IntegrityError`. -/
def integrityError (msg : String) : EngineError :=
  ⟨"INTEGRITY_ERROR", msg⟩

/-- The plain `Error("SecretsEngine instance is closed")` thrown by
`ensureOpen`. -/
def closedError : EngineError :=
  ⟨"Error", "SecretsEngine instance is closed"⟩

/-- Events of `computeIntegrityHmac(masterKey, dbFilePath, checkpointFn?)`:
run the checkpoint callback when one is supplied, then read the database
file (then hash it, which is pure). -/
def computeIntegrityEvents (checkpointFn : Bool) : List Event :=
  (if checkpointFn then [Event.checkpoint] else []) ++ [Event.readDbFile]

/-- Events of `updateIntegrity(...)`: compute the seal (with or without the
checkpoint callback) and rewrite `meta.json`. -/
def updateIntegrityEvents (checkpointFn : Bool) : List Event :=
  computeIntegrityEvents checkpointFn ++ [Event.writeMetaFile]

/-- Model of `verifyIntegrity(masterKey, dbFilePath, dirPath, checkpointFn)`
as called from `open` (the checkpoint callback is always supplied there):
read and parse the meta file, check the version, then compute the seal —
checkpointing first — and compare. -/
def verifyIntegrity (masterKey dbBytes : Nat) (meta : MetaRaw) :
    Except EngineError Unit × List Event :=
  match meta with
  | MetaRaw.absent =>
      (Except.error (integrityError "Metadata file (meta.json) is missing"),
       [Event.readMetaFile])
  | MetaRaw.invalidJson _ =>
      (Except.error (integrityError "Metadata file (meta.json) is corrupted"),
       [Event.readMetaFile])
  | MetaRaw.parsed _ version integrity =>
      if version ≠ some "1" then
        (Except.error (integrityError "Unsupported store version"), [Event.readMetaFile])
      else if integrity = some (sealOf masterKey dbBytes) then
        (Except.ok (), [Event.readMetaFile] ++ computeIntegrityEvents true)
      else
        (Except.error
          (integrityError "Database integrity check failed — possible tampering detected"),
         [Event.readMetaFile] ++ computeIntegrityEvents true)

/-! ## Engine (`src/engine.ts`) -/

/-- In-memory state of an open (or closed) `SecretsEngine` instance.
`nextIv` models the CSPRNG stream from which `encrypt` draws fresh IVs. -/
structure EngineState where
  masterKey : Nat
  rows : List (String × Row)
  keyIndex : List (String × String)
  closed : Bool
  nextIv : Nat
  dirPath : String
  salt : String
deriving DecidableEq

/-- Model of the private helper `resolveSalt(dirPath)`: reuse the salt of a
parseable meta file whose `salt` field is truthy (JavaScript: present and
non-empty); any parse failure or missing/empty salt yields a fresh salt and
marks the store new. -/
def resolveSalt (meta : MetaRaw) (freshSalt : String) : String × Bool :=
  match meta with
  | MetaRaw.parsed (some s) _ _ =>
      if s = "" then (freshSalt, true) else (s, false)
  | _ => (freshSalt, true)

/-- Model of the private `buildKeyIndex` loop: decrypt each row's `key_enc`
(IV prefix, remainder as ciphertext) under the master key; a row that fails
with `DecryptionError` is skipped (tombstoned in memory), every success is
`Map.set` into the index. -/
def buildKeyIndexAux (masterKey : Nat) (acc : List (String × String)) :
    List (String × Row) → List (String × String)
  | [] => acc
  | (kh, r) :: rest =>
    buildKeyIndexAux masterKey
      (match decryptBlob masterKey r.key_enc_iv r.key_enc_ct (some kh) with
       | Except.ok name => alUpsert acc kh name
       | Except.error _ => acc)
      rest

/-- The in-memory key index built on open from all database rows. -/
def buildKeyIndex (masterKey : Nat) (rows : List (String × Row)) : List (String × String) :=
  buildKeyIndexAux masterKey [] rows

/-- Model of `SecretsEngine.open` from the salt-resolution step onwards
(path resolution and permission checks are the platform model below; the
master key and the raw database state are inputs).  For an existing store
the integrity is verified (checkpointing first); for a new store
verification is skipped and, after the index is built, the initial seal is
written with the checkpoint callback supplied. -/
def openEngine (masterKey : Nat) (meta : MetaRaw) (dbBytes : Nat)
    (rows : List (String × Row)) (freshSalt dirPath : String) :
    Except EngineError (EngineState × List Event) :=
  let rs := resolveSalt meta freshSalt
  let ev0 : List Event := [Event.readMetaFile]
  if rs.2 then
    let st : EngineState :=
      ⟨masterKey, rows, buildKeyIndex masterKey rows, false, 0, dirPath, rs.1⟩
    Except.ok (st, ev0 ++ [Event.dbFindAll] ++ updateIntegrityEvents true)
  else
    match verifyIntegrity masterKey dbBytes meta with
    | (Except.error e, _) => Except.error e
    | (Except.ok _, ev) =>
      let st : EngineState :=
        ⟨masterKey, rows, buildKeyIndex masterKey rows, false, 0, dirPath, rs.1⟩
      Except.ok (st, ev0 ++ ev ++ [Event.dbFindAll])

/-- Model of `get(key)`: hash the name, fetch the row, decrypt its value. -/
def get (st : EngineState) (key : String) : Except EngineError (Option String) :=
  if st.closed then Except.error closedError
  else
    let keyHash := hmac st.masterKey key
    match alLookup st.rows keyHash with
    | none => Except.ok none
    | some entry =>
      match decryptBlob st.masterKey entry.iv entry.cipher (some keyHash) with
      | Except.ok v => Except.ok (some v)
      | Except.error e => Except.error ⟨"DECRYPTION_ERROR", e.msg⟩

/-- Model of `getOrThrow(key)`. -/
def getOrThrow (st : EngineState) (key : String) : Except EngineError String :=
  match get st key with
  | Except.error e => Except.error e
  | Except.ok none => Except.error ⟨"KEY_NOT_FOUND", "Key not found: " ++ key⟩
  | Except.ok (some v) => Except.ok v

/-- Model of `set(key, value)`: hash the name, encrypt name and value with
fresh IVs, pack `key_enc`, upsert the row, update the in-memory index under
the same hash, and update the integrity seal without checkpointing. -/
def set (st : EngineState) (key value : String) :
    Except EngineError (EngineState × List Event) :=
  if st.closed then Except.error closedError
  else
    let keyHash := hmac st.masterKey key
    let encryptedKey := encrypt st.masterKey key st.nextIv
    let encryptedValue := encrypt st.masterKey value (st.nextIv + 1)
    let row : Row :=
      ⟨encryptedKey.iv, encryptedKey.ciphertext, encryptedValue.iv, encryptedValue.ciphertext⟩
    let st2 : EngineState :=
      { st with
        rows := alUpsert st.rows keyHash row
        keyIndex := alUpsert st.keyIndex keyHash key
        nextIv := st.nextIv + 2 }
    Except.ok (st2, [Event.dbUpsert] ++ updateIntegrityEvents false)

/-- Model of `has(key)`: pure in-memory index lookup. -/
def has (st : EngineState) (key : String) : Except EngineError Bool :=
  if st.closed then Except.error closedError
  else Except.ok (alHas st.keyIndex (hmac st.masterKey key))

/-- Model of `delete(key)`: delete the row by hash; when a row was removed,
also drop the index entry and update the seal without checkpointing. -/
def delete (st : EngineState) (key : String) :
    Except EngineError (EngineState × Bool × List Event) :=
  if st.closed then Except.error closedError
  else
    let keyHash := hmac st.masterKey key
    let deleted := alHas st.rows keyHash
    if deleted then
      Except.ok
        ({ st with rows := alErase st.rows keyHash, keyIndex := alErase st.keyIndex keyHash },
         true, [Event.dbDelete] ++ updateIntegrityEvents false)
    else
      Except.ok (st, false, [Event.dbDelete])

/-- Model of `keys(pattern?)`: materialise the index values; with a truthy
pattern, filter through the glob matcher (whose regex construction can
throw); sort with the default JavaScript comparator. -/
def keys (st : EngineState) (pattern : Option String) : Except EngineError (List String) :=
  if st.closed then Except.error closedError
  else
    let allKeys := st.keyIndex.map Prod.snd
    match pattern with
    | none => Except.ok (List.insertionSort JsLe allKeys)
    | some p =>
      if p = "" then Except.ok (List.insertionSort JsLe allKeys)
      else
        match compileGlob p with
        | none => Except.error ⟨"SyntaxError", "Invalid regular expression"⟩
        | some atoms =>
          Except.ok (List.insertionSort JsLe
            (allKeys.filter (fun k => globAtomsMatch atoms k.toList)))

/-- Model of the `size` getter. -/
def size (st : EngineState) : Except EngineError Nat :=
  if st.closed then Except.error closedError
  else Except.ok st.keyIndex.length

/-- Model of the `storagePath` getter, which has no `ensureOpen` guard. -/
def storagePath (st : EngineState) : Except EngineError String :=
  Except.ok st.dirPath

/-- Model of `close()`: when not already closed, checkpoint the WAL, update
the seal (without passing the checkpoint callback — the explicit checkpoint
already ran), close the store, clear the index, mark closed.  Idempotent. -/
def close (st : EngineState) : EngineState × List Event :=
  if st.closed then (st, [])
  else
    ({ st with closed := true, keyIndex := [] },
     [Event.checkpoint] ++ updateIntegrityEvents false ++ [Event.dbClose])

/-- Model of `destroy()`: guarded by `ensureOpen`, then checkpoint, close the
store, clear the index, mark closed and remove the directory contents (the
filesystem removals and retry loop are beyond the state model). -/
def destroy (st : EngineState) : Except EngineError (EngineState × List Event) :=
  if st.closed then Except.error closedError
  else
    Except.ok ({ st with closed := true, keyIndex := [] },
      [Event.checkpoint, Event.dbClose])

/-! ## Platform utilities (`src/platform.ts`) -/

/-- The `StorageLocation` preset type of `types.ts`. -/
inductive StorageLocation where
  | home
  | xdg
deriving DecidableEq

/-- The `OpenOptions` record of `types.ts`. -/
structure OpenOptions where
  path : Option String
  location : Option StorageLocation
deriving DecidableEq

/-- Environment observed by `platform.ts`: the platform flag and the
environment variables and home directory it reads. -/
structure Env where
  isWin : Bool
  xdgConfigHome : Option String
  appData : Option String
  homedir : String
deriving DecidableEq

/-- JavaScript truthiness of an optional string (`undefined` and `""` are
falsy). -/
def truthy : Option String → Bool
  | none => false
  | some s => s ≠ ""

/-- Node `path.join` for the two-segment joins of `platform.ts` (POSIX
separator; the claims instantiated on Windows never reach a join whose
separator matters). -/
def pathJoin (a b : String) : String := a ++ "/" ++ b

/-- Constructor model for `InitializationError`. -/
def initializationError (msg : String) : EngineError :=
  ⟨"INITIALIZATION_ERROR", msg⟩

/-- Model of the private `resolveXdgPath()`: `%APPDATA%/secrets-engine` on
Windows (missing or empty `APPDATA` throws), otherwise
`XDG_CONFIG_HOME ?? join(homedir(), ".config")` joined with
`secrets-engine` (note `??` is a nullish — not truthiness — test). -/
def resolveXdgPath (env : Env) : Except EngineError String :=
  if env.isWin then
    match env.appData with
    | some a =>
        if a = "" then Except.error (initializationError "APPDATA environment variable is not set")
        else Except.ok (pathJoin a "secrets-engine")
    | none => Except.error (initializationError "APPDATA environment variable is not set")
  else
    Except.ok (pathJoin
      (match env.xdgConfigHome with
       | some s => s
       | none => pathJoin env.homedir ".config") "secrets-engine")

/-- Model of `resolveStoragePath(options?)`: explicit truthy `path` wins;
then an explicit `location: "xdg"`; then the auto-detected
`XDG_CONFIG_HOME` on non-Windows; finally `join(homedir(), ".secrets-engine")`. -/
def resolveStoragePath (env : Env) (options : Option OpenOptions) :
    Except EngineError String :=
  let optPath : Option String := options.bind (fun o => o.path)
  let optLoc : Option StorageLocation := options.bind (fun o => o.location)
  if truthy optPath then Except.ok (optPath.getD "")
  else if optLoc = some StorageLocation.xdg then resolveXdgPath env
  else if env.isWin = false ∧ truthy env.xdgConfigHome then
    Except.ok (pathJoin (env.xdgConfigHome.getD "") "secrets-engine")
  else Except.ok (pathJoin env.homedir ".secrets-engine")

/-- Constructor model for `SecurityError` (code plus the expected/actual
modes it carries). -/
structure SecurityErr where
  expectedMode : Nat
  actualMode : Nat
  path : String
deriving DecidableEq

/-- Model of `verifyPermission(filePath, expectedMode, label)`: skipped on
Windows; on POSIX the stat mode masked with `0o777` must equal the expected
mode exactly, otherwise `SecurityError` is thrown. -/
def verifyPermission (isWin : Bool) (statMode expectedMode : Nat) (filePath : String) :
    Except SecurityErr Unit :=
  if isWin then Except.ok ()
  else
    let actualMode := statMode.land 0o777
    if actualMode ≠ expectedMode then
      Except.error ⟨expectedMode, actualMode, filePath⟩
    else Except.ok ()

/-- The `EXPECTED_MODES` table of `platform.ts`. -/
def expectedModeDirectory : Nat := 0o700
/-- Expected mode of `store.db`. -/
def expectedModeDatabase : Nat := 0o600
/-- Expected mode of `.keyfile`. -/
def expectedModeKeyfile : Nat := 0o400
/-- Expected mode of `meta.json`. -/
def expectedModeMeta : Nat := 0o600

/-- Model of `ensureDirectory(dirPath)` after a successful `mkdir`: on
POSIX, verify the directory mode against `EXPECTED_MODES.directory`. -/
def ensureDirectoryCheck (isWin : Bool) (statMode : Nat) (dirPath : String) :
    Except SecurityErr Unit :=
  if isWin then Except.ok ()
  else verifyPermission isWin statMode expectedModeDirectory dirPath

/-! ## Key-index invariant (claim C6) -/

/-- Whether a stored row's `key_enc` decrypts under the master key (the rows
that fail are exactly the ones tombstoned in memory). -/
def rowDecryptable (masterKey : Nat) (kh : String) (r : Row) : Bool :=
  (decryptBlob masterKey r.key_enc_iv r.key_enc_ct (some kh)).toBool

/-- The decrypted name of a row, when its `key_enc` decrypts. -/
def rowName (masterKey : Nat) (kh : String) (r : Row) : Option String :=
  (decryptBlob masterKey r.key_enc_iv r.key_enc_ct (some kh)).toOption

/-- The claimed bijection invariant: both the table and the index have
unique keys, and a hash is in the index exactly when the table holds a row
under it whose `key_enc` decrypts under the master key. -/
def IndexInv (masterKey : Nat) (rows : List (String × Row))
    (idx : List (String × String)) : Prop :=
  (rows.map Prod.fst).Nodup ∧ (idx.map Prod.fst).Nodup ∧
    ∀ kh : String,
      (alLookup idx kh).isSome = true ↔
        ∃ r, alLookup rows kh = some r ∧ rowDecryptable masterKey kh r = true

/-- Whether every database-file read in the event list is preceded by an
earlier WAL checkpoint (the trace property behind the checkpoint-discipline
claims). -/
def readsPrecededByCheckpoint : List Event → Bool
  | [] => true
  | Event.checkpoint :: _ => true
  | Event.readDbFile :: _ => false
  | _ :: rest => readsPrecededByCheckpoint rest

/-! ## Association-list lemmas -/

theorem alUpsert_cons_hit {β : Type} (p : String × β) (rest : List (String × β))
    (k : String) (v : β) (hp : p.1 = k) :
    alUpsert (p :: rest) k v = (k, v) :: rest := by
  simp [alUpsert, hp]

theorem alUpsert_cons_miss {β : Type} (p : String × β) (rest : List (String × β))
    (k : String) (v : β) (hp : ¬ p.1 = k) :
    alUpsert (p :: rest) k v = p :: alUpsert rest k v := by
  simp [alUpsert, hp]

theorem alLookup_upsert {β : Type} (l : List (String × β)) (k k2 : String) (v : β) :
    alLookup (alUpsert l k v) k2 = if k2 = k then some v else alLookup l k2 := by
  induction l with
  | nil =>
    by_cases h : k2 = k
    · simp [alUpsert, alLookup, h]
    · have h2 : ¬ (k = k2) := fun e => h e.symm
      simp [alUpsert, alLookup, h, h2]
  | cons p rest ih =>
    by_cases hp : p.1 = k
    · rw [alUpsert_cons_hit p rest k v hp]
      by_cases h2 : k2 = k
      · simp [alLookup, h2]
      · have hk : ¬ (k = k2) := fun e => h2 e.symm
        have hpk2 : ¬ (p.1 = k2) := by rw [hp]; exact hk
        simp [alLookup, h2, hk, hpk2]
    · rw [alUpsert_cons_miss p rest k v hp]
      by_cases hpk2 : p.1 = k2
      · have h2 : ¬ (k2 = k) := fun e => hp (by rw [hpk2, e])
        simp [alLookup, hpk2, h2]
      · simp [alLookup, hpk2, ih]

theorem alErase_cons_hit {β : Type} (p : String × β) (rest : List (String × β))
    (k : String) (hp : p.1 = k) : alErase (p :: rest) k = alErase rest k := by
  simp [alErase, List.filter_cons, hp]

theorem alErase_cons_miss {β : Type} (p : String × β) (rest : List (String × β))
    (k : String) (hp : ¬ p.1 = k) : alErase (p :: rest) k = p :: alErase rest k := by
  simp [alErase, List.filter_cons, hp]

theorem alLookup_erase {β : Type} (l : List (String × β)) (k k2 : String) :
    alLookup (alErase l k) k2 = if k2 = k then none else alLookup l k2 := by
  induction l with
  | nil => by_cases h : k2 = k <;> simp [alErase, alLookup, h]
  | cons p rest ih =>
    by_cases hp : p.1 = k
    · rw [alErase_cons_hit p rest k hp, ih]
      by_cases h2 : k2 = k
      · simp [h2]
      · have hpk2 : ¬ (p.1 = k2) := fun e => h2 (by rw [← e, hp])
        simp [alLookup, h2, hpk2]
    · rw [alErase_cons_miss p rest k hp]
      by_cases hpk2 : p.1 = k2
      · have h2 : ¬ (k2 = k) := fun e => hp (by rw [hpk2, e])
        simp [alLookup, hpk2, h2]
      · simp [alLookup, hpk2, ih]

theorem alLookup_eq_none_of_not_mem {β : Type} (l : List (String × β)) (k : String)
    (h : k ∉ l.map Prod.fst) : alLookup l k = none := by
  induction l with
  | nil => rfl
  | cons p rest ih =>
    rw [List.map_cons, List.mem_cons] at h
    push_neg at h
    have h1 : ¬ (p.1 = k) := fun e => h.1 e.symm
    simp [alLookup, h1, ih h.2]

theorem mem_keys_upsert {β : Type} (l : List (String × β)) (k k2 : String) (v : β) :
    k2 ∈ (alUpsert l k v).map Prod.fst ↔ k2 ∈ l.map Prod.fst ∨ k2 = k := by
  induction l with
  | nil => simp [alUpsert]
  | cons p rest ih =>
    by_cases hp : p.1 = k
    · rw [alUpsert_cons_hit p rest k v hp]
      simp only [List.map_cons, List.mem_cons, hp]
      tauto
    · rw [alUpsert_cons_miss p rest k v hp]
      simp only [List.map_cons, List.mem_cons, ih]
      tauto

theorem nodup_keys_upsert {β : Type} (l : List (String × β)) (k : String) (v : β)
    (h : (l.map Prod.fst).Nodup) : ((alUpsert l k v).map Prod.fst).Nodup := by
  induction l with
  | nil => simp [alUpsert]
  | cons p rest ih =>
    rw [List.map_cons, List.nodup_cons] at h
    by_cases hp : p.1 = k
    · rw [alUpsert_cons_hit p rest k v hp, List.map_cons, List.nodup_cons]
      exact ⟨hp ▸ h.1, h.2⟩
    · rw [alUpsert_cons_miss p rest k v hp, List.map_cons, List.nodup_cons]
      refine ⟨?_, ih h.2⟩
      rw [mem_keys_upsert]
      rintro (hm | hm)
      · exact h.1 hm
      · exact hp hm

theorem nodup_keys_erase {β : Type} (l : List (String × β)) (k : String)
    (h : (l.map Prod.fst).Nodup) : ((alErase l k).map Prod.fst).Nodup := by
  induction l with
  | nil => simp [alErase]
  | cons p rest ih =>
    rw [List.map_cons, List.nodup_cons] at h
    by_cases hp : p.1 = k
    · rw [alErase_cons_hit p rest k hp]
      exact ih h.2
    · rw [alErase_cons_miss p rest k hp, List.map_cons, List.nodup_cons]
      refine ⟨?_, ih h.2⟩
      intro hm
      have : p.1 ∈ rest.map Prod.fst := by
        rcases List.mem_map.mp hm with ⟨q, hq, he⟩
        exact List.mem_map.mpr ⟨q, (List.mem_filter.mp hq).1, he⟩
      exact h.1 this

/-! ## Claim C1 — set/get round-trip -/

/-- C1: for every open engine and every pair of strings, a completed
`set(name, value)` followed by `get(name)` on the same engine instance
returns `value`: the encrypt/HMAC/upsert pipeline of `set` round-trips
through the find/decrypt pipeline of `get`. -/
theorem C1_set_get_roundtrip (st : EngineState) (name value : String)
    (st2 : EngineState) (ev : List Event)
    (hopen : st.closed = false) (hset : set st name value = Except.ok (st2, ev)) :
    get st2 name = Except.ok (some value) := by
  unfold set at hset
  rw [hopen] at hset
  simp only [Bool.false_eq_true, if_false, Except.ok.injEq, Prod.mk.injEq] at hset
  obtain ⟨hst2, -⟩ := hset
  subst hst2
  unfold get
  simp only [hopen, Bool.false_eq_true, if_false]
  rw [alLookup_upsert]
  simp only [if_pos rfl, encrypt]
  unfold decryptBlob blobLen
  have hlen : ¬ (value.utf8ByteSize + 16 < 16) := by omega
  simp [hlen]

theorem C1_witness :
    ∃ r, set ⟨0, [], [], false, 0, "/tmp/store", "salt"⟩ "openai.apiKey" "sk-abc123" =
        Except.ok r ∧ get r.1 "openai.apiKey" = Except.ok (some "sk-abc123") :=
  ⟨_, rfl,
    C1_set_get_roundtrip ⟨0, [], [], false, 0, "/tmp/store", "salt"⟩
      "openai.apiKey" "sk-abc123" _ _ rfl rfl⟩

/-! ## Claim C2 — behaviour after close -/

/-- C2 counterexample: `destroy()` is guarded by `ensureOpen`, so invoked
after `close()` it fails with the closed-instance error, contrary to the
claim that `destroy()` does not raise it after close. -/
theorem C2_counterexample :
    destroy ⟨0, [], [], true, 0, "/tmp/store", "salt"⟩ = Except.error closedError := rfl

/-- C2 (amended): after `close()`, the operations `get`, `getOrThrow`,
`set`, `has`, `delete`, `keys`, `size` — and also `destroy` — fail with the
fatal "instance is closed" error, while a second `close()` is a no-op and
the `storagePath` accessor still succeeds. -/
theorem C2_closed_operations (st : EngineState) (h : st.closed = true)
    (k v : String) (p : Option String) :
    get st k = Except.error closedError ∧
    getOrThrow st k = Except.error closedError ∧
    set st k v = Except.error closedError ∧
    has st k = Except.error closedError ∧
    delete st k = Except.error closedError ∧
    keys st p = Except.error closedError ∧
    size st = Except.error closedError ∧
    destroy st = Except.error closedError ∧
    close st = (st, []) ∧
    storagePath st = Except.ok st.dirPath := by
  simp [get, getOrThrow, set, has, delete, keys, size, destroy, close, storagePath, h]

theorem C2_witness :
    get ⟨0, [], [], true, 0, "/tmp/store", "salt"⟩ "k" = Except.error closedError :=
  (C2_closed_operations ⟨0, [], [], true, 0, "/tmp/store", "salt"⟩ rfl "k" "v" none).1

/-! ## Claim C3 — corrupted meta file at open -/

/-- C3 counterexample: with an existing but unparseable `meta.json`, `open`
returns an engine instance (treating the store as new, with a fresh salt)
instead of failing with `IntegrityError`. -/
theorem C3_counterexample :
    openEngine 7 (MetaRaw.invalidJson "not json") 3 [] "freshsalt" "/tmp/store" =
      Except.ok (⟨7, [], [], false, 0, "/tmp/store", "freshsalt"⟩,
        [Event.readMetaFile, Event.dbFindAll, Event.checkpoint, Event.readDbFile,
         Event.writeMetaFile]) := rfl

/-- C3 (amended): when `meta.json` exists but is not parseable JSON,
`resolveSalt` swallows the parse failure and marks the store new, so `open`
succeeds with a freshly generated salt, skips verification, and overwrites
the meta file with a new seal.  The `IntegrityError` with message
"metadata file corrupted" lives in `verifyIntegrity`, which `open` only
invokes for stores whose meta parsed with a usable salt. -/
theorem C3_corrupted_meta_opens_as_new_store (masterKey dbBytes : Nat) (raw : String)
    (rows : List (String × Row)) (freshSalt dirPath : String) :
    (∃ st ev, openEngine masterKey (MetaRaw.invalidJson raw) dbBytes rows freshSalt dirPath =
        Except.ok (st, ev) ∧ st.salt = freshSalt ∧ st.closed = false ∧
        Event.writeMetaFile ∈ ev) ∧
    (verifyIntegrity masterKey dbBytes (MetaRaw.invalidJson raw)).1 =
      Except.error (integrityError "Metadata file (meta.json) is corrupted") := by
  constructor
  · refine ⟨_, _, rfl, rfl, rfl, ?_⟩
    simp [updateIntegrityEvents, computeIntegrityEvents]
  · rfl

/-! ## Claim C5 — WAL-checkpoint discipline of the integrity seal -/

theorem verifyIntegrity_ok_events (masterKey dbBytes : Nat) (meta : MetaRaw)
    (ev : List Event) (h : verifyIntegrity masterKey dbBytes meta = (Except.ok (), ev)) :
    ev = [Event.readMetaFile, Event.checkpoint, Event.readDbFile] := by
  cases meta with
  | absent => simp [verifyIntegrity] at h
  | invalidJson raw => simp [verifyIntegrity] at h
  | parsed salt version integrity =>
    simp only [verifyIntegrity] at h
    split at h
    · simp at h
    · split at h
      · simp [computeIntegrityEvents] at h
        exact h.symm
      · simp at h

/-- C5: checkpoint discipline of the integrity seal — verification on open
of an existing store checkpoints the WAL before the database file is read
and hashed; the seal updates inside `set` and a successful `delete`
recompute and write the seal without checkpointing; `close` checkpoints the
WAL before computing and writing the final seal. -/
theorem C5_checkpoint_discipline :
    (∀ masterKey dbBytes meta rows freshSalt dirPath st2 ev,
        (resolveSalt meta freshSalt).2 = false →
        openEngine masterKey meta dbBytes rows freshSalt dirPath = Except.ok (st2, ev) →
        Event.checkpoint ∈ ev ∧ readsPrecededByCheckpoint ev = true) ∧
    (∀ st key value st2 ev, set st key value = Except.ok (st2, ev) →
        Event.readDbFile ∈ ev ∧ Event.writeMetaFile ∈ ev ∧ Event.checkpoint ∉ ev) ∧
    (∀ st key st2 d ev, delete st key = Except.ok (st2, d, ev) → d = true →
        Event.readDbFile ∈ ev ∧ Event.writeMetaFile ∈ ev ∧ Event.checkpoint ∉ ev) ∧
    (∀ st st2 ev, st.closed = false → close st = (st2, ev) →
        Event.checkpoint ∈ ev ∧ Event.writeMetaFile ∈ ev ∧
        readsPrecededByCheckpoint ev = true) := by
  refine ⟨?_, ?_, ?_, ?_⟩
  · intro masterKey dbBytes meta rows freshSalt dirPath st2 ev hnew hok
    simp only [openEngine, hnew, Bool.false_eq_true, if_false] at hok
    rcases hv : verifyIntegrity masterKey dbBytes meta with ⟨res, vev⟩
    rw [hv] at hok
    cases res with
    | error e => simp at hok
    | ok u =>
      cases u
      simp only [Except.ok.injEq, Prod.mk.injEq] at hok
      rw [verifyIntegrity_ok_events masterKey dbBytes meta vev hv] at hok
      rw [← hok.2]
      decide
  · intro st key value st2 ev hset
    by_cases hc : st.closed = true
    · simp [set, hc] at hset
    · simp only [set, hc, Bool.false_eq_true, if_false, Except.ok.injEq, Prod.mk.injEq] at hset
      rw [← hset.2]
      decide
  · intro st key st2 d ev hdel hdt
    by_cases hc : st.closed = true
    · simp [delete, hc] at hdel
    · by_cases hhit : alHas st.rows (hmac st.masterKey key) = true
      · simp only [delete, hc, Bool.false_eq_true, if_false, hhit, if_true,
          Except.ok.injEq, Prod.mk.injEq] at hdel
        rw [← hdel.2.2]
        decide
      · simp only [delete, hc, Bool.false_eq_true, if_false, hhit, Except.ok.injEq,
          Prod.mk.injEq] at hdel
        rw [hdt] at hdel
        simp at hdel
  · intro st st2 ev hc hclose
    simp only [close, hc, Bool.false_eq_true, if_false, Prod.mk.injEq] at hclose
    rw [← hclose.2]
    decide

theorem C5_witness :
    (Event.checkpoint ∈
        [Event.readMetaFile, Event.readMetaFile, Event.checkpoint, Event.readDbFile,
          Event.dbFindAll] ∧
      readsPrecededByCheckpoint
        [Event.readMetaFile, Event.readMetaFile, Event.checkpoint, Event.readDbFile,
          Event.dbFindAll] = true) ∧
    (Event.readDbFile ∈ [Event.dbUpsert, Event.readDbFile, Event.writeMetaFile] ∧
      Event.writeMetaFile ∈ [Event.dbUpsert, Event.readDbFile, Event.writeMetaFile] ∧
      Event.checkpoint ∉ [Event.dbUpsert, Event.readDbFile, Event.writeMetaFile]) ∧
    (Event.checkpoint ∈
        [Event.checkpoint, Event.readDbFile, Event.writeMetaFile, Event.dbClose] ∧
      Event.writeMetaFile ∈
        [Event.checkpoint, Event.readDbFile, Event.writeMetaFile, Event.dbClose] ∧
      readsPrecededByCheckpoint
        [Event.checkpoint, Event.readDbFile, Event.writeMetaFile, Event.dbClose] = true) :=
  ⟨C5_checkpoint_discipline.1 1 2 (MetaRaw.parsed (some "s") (some "1") (some (sealOf 1 2)))
      [] "fresh" "/tmp/store" ⟨1, [], [], false, 0, "/tmp/store", "s"⟩
      [Event.readMetaFile, Event.readMetaFile, Event.checkpoint, Event.readDbFile,
        Event.dbFindAll] rfl rfl,
    C5_checkpoint_discipline.2.1 ⟨0, [], [], false, 0, "/tmp/store", "s"⟩ "k" "v" _
      [Event.dbUpsert, Event.readDbFile, Event.writeMetaFile] rfl,
    C5_checkpoint_discipline.2.2.2 ⟨0, [], [], false, 0, "/tmp/store", "s"⟩ _
      [Event.checkpoint, Event.readDbFile, Event.writeMetaFile, Event.dbClose] rfl rfl⟩

/-! ## Claim C4 — glob matcher semantics -/

theorem compileGlobAux_no_q (cs : List Char) : ∀ (acc : List GlobAtom) (st : Nat),
    '?' ∉ cs → compileGlobAux acc st cs = some (acc ++ toAtoms cs) := by
  induction cs with
  | nil => intro acc st _; simp [compileGlobAux, toAtoms]
  | cons c cs ih =>
    intro acc st h
    have hc : ¬ (c = '?') := fun e => h (by rw [← e]; exact List.mem_cons_self c cs)
    have h2 : '?' ∉ cs := fun m => h (List.mem_cons_of_mem _ m)
    by_cases hstar : c = '*'
    · subst hstar
      have he : compileGlobAux acc st ('*' :: cs) = compileGlobAux (acc ++ [GlobAtom.star]) 2 cs := by
        simp [compileGlobAux]
      rw [he, ih _ _ h2]
      simp [toAtoms]
    · have he : compileGlobAux acc st (c :: cs) = compileGlobAux (acc ++ [GlobAtom.lit c]) 1 cs := by
        simp [compileGlobAux, hstar, hc]
      rw [he, ih _ _ h2]
      simp [toAtoms, hstar]

theorem compileGlob_no_q (p : String) (hp : '?' ∉ p.toList) :
    compileGlob p = some (toAtoms p.toList) := by
  unfold compileGlob
  rw [compileGlobAux_no_q _ _ _ hp]
  simp

theorem toAtoms_cons (c : Char) (ps : List Char) :
    toAtoms (c :: ps) =
      (if c = '*' then GlobAtom.star else GlobAtom.lit c) :: toAtoms ps := rfl

theorem toAtoms_cons_star (ps : List Char) :
    toAtoms ('*' :: ps) = GlobAtom.star :: toAtoms ps := by
  rw [toAtoms_cons, if_pos rfl]

theorem toAtoms_cons_lit (c : Char) (ps : List Char) (hc : ¬ c = '*') :
    toAtoms (c :: ps) = GlobAtom.lit c :: toAtoms ps := by
  rw [toAtoms_cons, if_neg hc]

theorem globAtomsMatch_star_skip (as : List GlobAtom) (ks : List Char)
    (h : globAtomsMatch as ks = true) : globAtomsMatch (GlobAtom.star :: as) ks = true := by
  cases ks with
  | nil => simpa [globAtomsMatch, starRun] using h
  | cons k ks => simp [globAtomsMatch, starRun, h]

theorem globAtomsMatch_star_run (as : List GlobAtom) (run ks : List Char)
    (hrun : ∀ c ∈ run, c ≠ '.') (h : globAtomsMatch (GlobAtom.star :: as) ks = true) :
    globAtomsMatch (GlobAtom.star :: as) (run ++ ks) = true := by
  induction run with
  | nil => simpa using h
  | cons c run ih =>
    have hc : ¬ (c = '.') := hrun c (List.mem_cons_self c run)
    have ht : starRun (globAtomsMatch as) (run ++ ks) = true :=
      ih (fun d hd => hrun d (List.mem_cons_of_mem _ hd))
    show globAtomsMatch (GlobAtom.star :: as) (c :: (run ++ ks)) = true
    simp [globAtomsMatch, starRun, hc, ht]

theorem globAtomsMatch_of_globSpec (ps ks : List Char) (h : GlobSpec ps ks) :
    globAtomsMatch (toAtoms ps) ks = true := by
  induction h with
  | nil => rfl
  | lit hc _ ih =>
    rw [toAtoms_cons, if_neg hc]
    simp [globAtomsMatch, ih]
  | star run hrun _ ih =>
    rw [toAtoms_cons, if_pos rfl]
    exact globAtomsMatch_star_run _ run _ hrun (globAtomsMatch_star_skip _ _ ih)

theorem globSpec_of_match : ∀ ps ks : List Char,
    globAtomsMatch (toAtoms ps) ks = true → GlobSpec ps ks
  | [], [], _ => GlobSpec.nil
  | [], _ :: _, h => by simp [toAtoms, globAtomsMatch] at h
  | c :: ps, [], h => by
    by_cases hstar : c = '*'
    · subst hstar
      rw [toAtoms_cons_star ps] at h
      have h2 : globAtomsMatch (toAtoms ps) [] = true := by
        simpa [globAtomsMatch, starRun] using h
      exact GlobSpec.star [] (by intro d hd; cases hd) (globSpec_of_match ps [] h2)
    · rw [toAtoms_cons_lit c ps hstar] at h
      simp [globAtomsMatch] at h
  | c :: ps, k :: ks, h => by
    by_cases hstar : c = '*'
    · subst hstar
      rw [toAtoms_cons_star ps] at h
      have hsplit : globAtomsMatch (toAtoms ps) (k :: ks) = true ∨
          ((k == '.') = false ∧ starRun (globAtomsMatch (toAtoms ps)) ks = true) := by
        rw [show globAtomsMatch (GlobAtom.star :: toAtoms ps) (k :: ks) =
              (globAtomsMatch (toAtoms ps) (k :: ks) ||
                (!(k == '.') && starRun (globAtomsMatch (toAtoms ps)) ks)) from rfl] at h
        simp only [Bool.or_eq_true, Bool.and_eq_true, Bool.not_eq_true'] at h
        exact h
      rcases hsplit with h1 | ⟨hdot, h3⟩
      · exact GlobSpec.star [] (by intro d hd; cases hd) (globSpec_of_match ps (k :: ks) h1)
      · have h4 : GlobSpec ('*' :: ps) ks :=
          globSpec_of_match ('*' :: ps) ks (by rw [toAtoms_cons_star ps]; exact h3)
        cases h4 with
        | lit hc _ => exact absurd rfl hc
        | star run hrun hrest =>
          refine GlobSpec.star (k :: run) ?_ hrest
          intro d hd
          rcases List.mem_cons.mp hd with he | hm
          · rw [he]; simpa using hdot
          · exact hrun d hm
    · rw [toAtoms_cons_lit c ps hstar] at h
      rw [show globAtomsMatch (GlobAtom.lit c :: toAtoms ps) (k :: ks) =
            (c == k && globAtomsMatch (toAtoms ps) ks) from rfl] at h
      simp only [Bool.and_eq_true, beq_iff_eq] at h
      obtain ⟨hck, hrec⟩ := h
      subst hck
      exact GlobSpec.lit hstar (globSpec_of_match ps ks hrec)
termination_by ps ks => (ps.length, ks.length)

theorem globAtomsMatch_iff_globSpec (ps ks : List Char) :
    globAtomsMatch (toAtoms ps) ks = true ↔ GlobSpec ps ks :=
  ⟨globSpec_of_match ps ks, globAtomsMatch_of_globSpec ps ks⟩

/-- C4 counterexample: `?` is missing from the escape class of `matchGlob`,
so it reaches the regex as a quantifier: `matchGlob("a?", "a?")` is `false`
although the claimed semantics (every non-`*` character literal) matches the
key `"a?"` against the pattern `"a?"`. -/
theorem C4_counterexample :
    ¬ (matchGlob "a?" "a?" = some true ↔ GlobSpec "a?".toList "a?".toList) := by
  intro hiff
  have hspec : GlobSpec "a?".toList "a?".toList := by
    rw [show "a?".toList = ['a', '?'] from rfl]
    exact GlobSpec.lit (by decide) (GlobSpec.lit (by decide) GlobSpec.nil)
  have hm : matchGlob "a?" "a?" = some false := rfl
  rw [hm] at hiff
  exact Option.noConfusion (hiff.mpr hspec) (fun h => Bool.noConfusion h)

/-- C4 (amended): for every pattern that does not contain `?` (the one
regex-significant character the implementation fails to escape) and every
key, `matchGlob` succeeds and holds exactly when the key is obtained from
the pattern by replacing each `*` with a possibly-empty run of characters
not containing `.`, every other pattern character matched literally,
anchored at both ends. -/
theorem C4_matchGlob_spec (p k : String) (hp : '?' ∉ p.toList) :
    ∃ b, matchGlob p k = some b ∧ (b = true ↔ GlobSpec p.toList k.toList) := by
  refine ⟨globAtomsMatch (toAtoms p.toList) k.toList, ?_, globAtomsMatch_iff_globSpec _ _⟩
  unfold matchGlob
  rw [compileGlob_no_q p hp]
  rfl

theorem C4_witness :
    ∃ b, matchGlob "openai.*" "openai.apiKey" = some b ∧
      (b = true ↔ GlobSpec "openai.*".toList "openai.apiKey".toList) :=
  C4_matchGlob_spec "openai.*" "openai.apiKey" (by decide)

/-! ## Claim C9 — exact permission-mode verification -/

/-- C9: on POSIX, `verifyPermission` raises `SecurityError` exactly when the
stat mode masked with `0o777` differs from the expected mode — in either
direction, so a stricter-than-expected mode (such as a storage directory at
`0o500` instead of `0o700`) also fails; `ensureDirectory` applies this check
with the expected directory mode. -/
theorem C9_verifyPermission_exact (statMode expectedMode : Nat) (filePath : String) :
    (verifyPermission false statMode expectedMode filePath = Except.ok () ↔
      statMode.land 0o777 = expectedMode) ∧
    verifyPermission false 0o500 expectedModeDirectory "/tmp/store" =
      Except.error ⟨expectedModeDirectory, 0o500, "/tmp/store"⟩ ∧
    ensureDirectoryCheck false statMode filePath =
      verifyPermission false statMode expectedModeDirectory filePath := by
  refine ⟨?_, by rfl, rfl⟩
  unfold verifyPermission
  by_cases h : statMode.land 0o777 = expectedMode <;> simp [h]

/-! ## Claim C10 — the "home" location token is ignored -/

/-- C10: `resolveStoragePath` never tests for the `"home"` location token,
so `{ location: "home" }` resolves identically to passing no options; in
particular on POSIX with a truthy `XDG_CONFIG_HOME` it yields
`$XDG_CONFIG_HOME/secrets-engine`, not the `$HOME/.secrets-engine`
default. -/
theorem C10_home_location_ignored (env : Env) :
    resolveStoragePath env (some ⟨none, some StorageLocation.home⟩) =
      resolveStoragePath env none ∧
    (env.isWin = false → truthy env.xdgConfigHome = true →
      resolveStoragePath env (some ⟨none, some StorageLocation.home⟩) =
        Except.ok (pathJoin (env.xdgConfigHome.getD "") "secrets-engine")) := by
  constructor
  · rfl
  · intro hw hx
    have h0 : resolveStoragePath env (some ⟨none, some StorageLocation.home⟩) =
        resolveStoragePath env none := rfl
    rw [h0]
    simp [resolveStoragePath, show truthy none = false from rfl, hw, hx]

theorem C10_witness :
    resolveStoragePath ⟨false, some "/xdg-config", none, "/home/user"⟩
        (some ⟨none, some StorageLocation.home⟩) =
      Except.ok (pathJoin "/xdg-config" "secrets-engine") :=
  (C10_home_location_ignored ⟨false, some "/xdg-config", none, "/home/user"⟩).2 rfl (by decide)

/-! ## Claim C8 — ordering of `keys()` -/

theorem lexLe_total (xs ys : List Nat) : lexLe xs ys = true ∨ lexLe ys xs = true := by
  induction xs generalizing ys with
  | nil => exact Or.inl rfl
  | cons a as ih =>
    cases ys with
    | nil => exact Or.inr rfl
    | cons b bs =>
      rcases Nat.lt_trichotomy a b with h | h | h
      · exact Or.inl (by simp [lexLe, h])
      · subst h
        rcases ih bs with h2 | h2
        · exact Or.inl (by simp [lexLe, h2])
        · exact Or.inr (by simp [lexLe, h2])
      · exact Or.inr (by simp [lexLe, h])

theorem lexLe_trans (xs ys zs : List Nat) (h1 : lexLe xs ys = true)
    (h2 : lexLe ys zs = true) : lexLe xs zs = true := by
  induction xs generalizing ys zs with
  | nil => rfl
  | cons a as ih =>
    cases ys with
    | nil => simp [lexLe] at h1
    | cons b bs =>
      cases zs with
      | nil => simp [lexLe] at h2
      | cons c cs =>
        simp only [lexLe, Bool.or_eq_true, Bool.and_eq_true, decide_eq_true_eq,
          beq_iff_eq] at h1 h2 ⊢
        rcases h1 with h1 | ⟨hab, h1⟩
        · rcases h2 with h2 | ⟨hbc, h2⟩
          · exact Or.inl (Nat.lt_trans h1 h2)
          · exact Or.inl (hbc ▸ h1)
        · rcases h2 with h2 | ⟨hbc, h2⟩
          · exact Or.inl (hab.symm ▸ h2)
          · exact Or.inr ⟨hab.trans hbc, ih bs cs h1 h2⟩

instance : IsTotal String JsLe :=
  ⟨fun a b => lexLe_total (utf16 a) (utf16 b)⟩

instance : IsTrans String JsLe :=
  ⟨fun a b c h1 h2 => lexLe_trans (utf16 a) (utf16 b) (utf16 c) h1 h2⟩

/-- C8 counterexample: `Array.prototype.sort()` compares UTF-16 code units,
so the name consisting of the supplementary-plane character `U+10000`
(surrogate pair `D800 DC00`) sorts before the name `U+FF61`, although its
code point is larger — `keys()` is not sorted by code-point order. -/
theorem C8_counterexample :
    ∃ l, keys ⟨0, [],
        [("h1", String.singleton (Char.ofNat 0x10000)),
         ("h2", String.singleton (Char.ofNat 0xFF61))],
        false, 0, "/tmp/store", "s"⟩ none = Except.ok l ∧
      ¬ List.Sorted CodePointLe l := by
  refine ⟨[String.singleton (Char.ofNat 0x10000), String.singleton (Char.ofNat 0xFF61)],
    by rfl, by decide⟩

/-- C8 (amended): `keys(pattern?)` returns exactly the in-memory index
values — filtered through the glob matcher when a truthy pattern is
supplied — sorted ascending by UTF-16 code-unit order (the ECMAScript
default sort), which agrees with code-point order only for names confined
to the basic multilingual plane. -/
theorem C8_keys_sorted (st : EngineState) (h : st.closed = false) :
    (∃ l, keys st none = Except.ok l ∧
        l.Perm (st.keyIndex.map Prod.snd) ∧ List.Sorted JsLe l) ∧
    (∀ p atoms, ¬ p = "" → compileGlob p = some atoms →
      ∃ l, keys st (some p) = Except.ok l ∧
        l.Perm ((st.keyIndex.map Prod.snd).filter
          (fun k => globAtomsMatch atoms k.toList)) ∧
        List.Sorted JsLe l) := by
  constructor
  · refine ⟨_, ?_, List.perm_insertionSort _ _, List.sorted_insertionSort _ _⟩
    simp [keys, h]
  · intro p atoms hp hc
    refine ⟨_, ?_, List.perm_insertionSort _ _, List.sorted_insertionSort _ _⟩
    simp [keys, h, hp, hc]

theorem C8_witness :
    ∃ l, keys ⟨0, [], [("h1", "b"), ("h2", "a")], false, 0, "/tmp/store", "s"⟩ none =
        Except.ok l ∧ l.Perm ["b", "a"] ∧ List.Sorted JsLe l :=
  (C8_keys_sorted ⟨0, [], [("h1", "b"), ("h2", "a")], false, 0, "/tmp/store", "s"⟩ rfl).1

/-! ## Claim C6 — name index in bijection with the decryptable rows -/

theorem rowDecryptable_iff_rowName (masterKey : Nat) (kh : String) (r : Row) :
    rowDecryptable masterKey kh r = true ↔ ∃ n, rowName masterKey kh r = some n := by
  unfold rowDecryptable rowName
  cases decryptBlob masterKey r.key_enc_iv r.key_enc_ct (some kh) <;>
    simp [Except.toBool, Except.toOption]

theorem alLookup_buildKeyIndexAux (masterKey : Nat) (rows : List (String × Row)) :
    ∀ acc : List (String × String), (rows.map Prod.fst).Nodup → ∀ kh,
      alLookup (buildKeyIndexAux masterKey acc rows) kh =
        (match alLookup rows kh with
         | some r =>
           (match rowName masterKey kh r with
            | some n => some n
            | none => alLookup acc kh)
         | none => alLookup acc kh) := by
  induction rows with
  | nil => intro acc _ kh; simp [buildKeyIndexAux, alLookup]
  | cons p rest ih =>
    obtain ⟨kh0, r0⟩ := p
    intro acc hnd kh
    rw [List.map_cons, List.nodup_cons] at hnd
    simp only [buildKeyIndexAux]
    rw [ih _ hnd.2 kh]
    by_cases hk : kh = kh0
    · subst hk
      have hnone : alLookup rest kh = none := alLookup_eq_none_of_not_mem _ _ hnd.1
      rw [hnone]
      have hhead : alLookup ((kh, r0) :: rest) kh = some r0 := by simp [alLookup]
      rw [hhead]
      cases hdec : decryptBlob masterKey r0.key_enc_iv r0.key_enc_ct (some kh) with
      | ok n => simp [rowName, hdec, Except.toOption, alLookup_upsert]
      | error e => simp [rowName, hdec, Except.toOption]
    · have hne : ¬ (kh0 = kh) := fun e => hk e.symm
      have hhead : alLookup ((kh0, r0) :: rest) kh = alLookup rest kh := by
        simp [alLookup, hne]
      rw [hhead]
      cases hdec : decryptBlob masterKey r0.key_enc_iv r0.key_enc_ct (some kh0) with
      | ok n =>
        cases hrest : alLookup rest kh with
        | some r =>
          cases hn : rowName masterKey kh r with
          | some n2 => simp [hn]
          | none => simp [hn, alLookup_upsert, hk]
        | none => simp [alLookup_upsert, hk]
      | error e => rfl

theorem nodup_keys_buildKeyIndexAux (masterKey : Nat) (rows : List (String × Row)) :
    ∀ acc : List (String × String), ((acc.map Prod.fst).Nodup) →
      ((buildKeyIndexAux masterKey acc rows).map Prod.fst).Nodup := by
  induction rows with
  | nil => intro acc h; simpa [buildKeyIndexAux] using h
  | cons p rest ih =>
    obtain ⟨kh0, r0⟩ := p
    intro acc h
    simp only [buildKeyIndexAux]
    cases hdec : decryptBlob masterKey r0.key_enc_iv r0.key_enc_ct (some kh0) with
    | ok n => exact ih _ (nodup_keys_upsert _ _ _ h)
    | error e => exact ih _ h

theorem buildKeyIndex_inv (masterKey : Nat) (rows : List (String × Row))
    (hnd : (rows.map Prod.fst).Nodup) :
    IndexInv masterKey rows (buildKeyIndex masterKey rows) := by
  refine ⟨hnd, nodup_keys_buildKeyIndexAux masterKey rows [] (by simp), ?_⟩
  intro kh
  unfold buildKeyIndex
  rw [alLookup_buildKeyIndexAux masterKey rows [] hnd kh]
  cases hrow : alLookup rows kh with
  | none => simp [alLookup]
  | some r =>
    cases hn : rowName masterKey kh r with
    | some n =>
      have hd : rowDecryptable masterKey kh r = true :=
        (rowDecryptable_iff_rowName masterKey kh r).mpr ⟨n, hn⟩
      simp [hn, hd]
    | none =>
      have hd : ¬ (rowDecryptable masterKey kh r = true) := by
        intro h
        rcases (rowDecryptable_iff_rowName masterKey kh r).mp h with ⟨n, hn2⟩
        rw [hn] at hn2
        exact Option.noConfusion hn2
      have hd2 : rowDecryptable masterKey kh r = false := by simpa using hd
      simp [hn, hd2, alLookup]

theorem set_preserves_inv (st : EngineState) (key value : String) (st2 : EngineState)
    (ev : List Event) (hinv : IndexInv st.masterKey st.rows st.keyIndex)
    (hset : set st key value = Except.ok (st2, ev)) :
    IndexInv st2.masterKey st2.rows st2.keyIndex := by
  by_cases hc : st.closed = true
  · simp [set, hc] at hset
  · simp only [set, hc, Bool.false_eq_true, if_false, Except.ok.injEq, Prod.mk.injEq] at hset
    obtain ⟨hst2, -⟩ := hset
    subst hst2
    refine ⟨nodup_keys_upsert _ _ _ hinv.1, nodup_keys_upsert _ _ _ hinv.2.1, ?_⟩
    intro kh
    show (alLookup (alUpsert st.keyIndex (hmac st.masterKey key) key) kh).isSome = true ↔ _
    rw [alLookup_upsert]
    by_cases hk : kh = hmac st.masterKey key
    · rw [if_pos hk]
      have h16 : ¬ (key.utf8ByteSize + 16 < 16) := by omega
      constructor
      · intro _
        refine ⟨⟨st.nextIv, Blob.sealed st.masterKey st.nextIv key,
          st.nextIv + 1, Blob.sealed st.masterKey (st.nextIv + 1) value⟩, ?_, ?_⟩
        · show alLookup (alUpsert st.rows (hmac st.masterKey key) _) kh = _
          rw [alLookup_upsert, if_pos hk]
          rfl
        · simp [rowDecryptable, decryptBlob, blobLen, h16, Except.toBool]
      · intro _
        simp
    · rw [if_neg hk]
      have hrows : alLookup (alUpsert st.rows (hmac st.masterKey key)
          ⟨(encrypt st.masterKey key st.nextIv).iv,
           (encrypt st.masterKey key st.nextIv).ciphertext,
           (encrypt st.masterKey value (st.nextIv + 1)).iv,
           (encrypt st.masterKey value (st.nextIv + 1)).ciphertext⟩) kh =
          alLookup st.rows kh := by
        rw [alLookup_upsert, if_neg hk]
      show _ ↔ ∃ r, alLookup (alUpsert st.rows (hmac st.masterKey key) _) kh = some r ∧
        rowDecryptable st.masterKey kh r = true
      rw [hrows]
      exact hinv.2.2 kh

theorem delete_preserves_inv (st : EngineState) (key : String) (st2 : EngineState)
    (d : Bool) (ev : List Event) (hinv : IndexInv st.masterKey st.rows st.keyIndex)
    (hdel : delete st key = Except.ok (st2, d, ev)) :
    IndexInv st2.masterKey st2.rows st2.keyIndex := by
  by_cases hc : st.closed = true
  · simp [delete, hc] at hdel
  · by_cases hhit : alHas st.rows (hmac st.masterKey key) = true
    · simp only [delete, hc, Bool.false_eq_true, if_false, hhit, if_true,
        Except.ok.injEq, Prod.mk.injEq] at hdel
      obtain ⟨hst2, -⟩ := hdel
      subst hst2
      refine ⟨nodup_keys_erase _ _ hinv.1, nodup_keys_erase _ _ hinv.2.1, ?_⟩
      intro kh
      show (alLookup (alErase st.keyIndex (hmac st.masterKey key)) kh).isSome = true ↔
        ∃ r, alLookup (alErase st.rows (hmac st.masterKey key)) kh = some r ∧
          rowDecryptable st.masterKey kh r = true
      rw [alLookup_erase, alLookup_erase]
      by_cases hk : kh = hmac st.masterKey key
      · simp [hk]
      · rw [if_neg hk, if_neg hk]
        exact hinv.2.2 kh
    · simp only [delete, hc, Bool.false_eq_true, if_false, hhit, Except.ok.injEq,
        Prod.mk.injEq] at hdel
      obtain ⟨hst2, -⟩ := hdel
      subst hst2
      exact hinv

/-- C6: whenever the engine is open, the in-memory name index is keyed
exactly by the database rows whose `key_enc` decrypts under the master key
(tombstoned rows excluded): `buildKeyIndex` establishes the correspondence
at open, and both `set` (which writes row and index entry under the same
`key_hash`) and `delete` (which removes both) preserve it. -/
theorem C6_index_bijection :
    (∀ masterKey rows, (rows.map Prod.fst).Nodup →
        IndexInv masterKey rows (buildKeyIndex masterKey rows)) ∧
    (∀ st key value st2 ev, IndexInv st.masterKey st.rows st.keyIndex →
        set st key value = Except.ok (st2, ev) →
        IndexInv st2.masterKey st2.rows st2.keyIndex) ∧
    (∀ st key st2 d ev, IndexInv st.masterKey st.rows st.keyIndex →
        delete st key = Except.ok (st2, d, ev) →
        IndexInv st2.masterKey st2.rows st2.keyIndex) :=
  ⟨buildKeyIndex_inv,
   fun st key value st2 ev hinv hset => set_preserves_inv st key value st2 ev hinv hset,
   fun st key st2 d ev hinv hdel => delete_preserves_inv st key st2 d ev hinv hdel⟩

theorem C6_witness : IndexInv 0 [] (buildKeyIndex 0 []) :=
  C6_index_bijection.1 0 [] (by simp)

/-! ## Claim C7 — error conditions of `decrypt` -/

theorem gcmDecBytes_gcmEncBytes (key : Nat) (plain : List Nat)
    (h : ∀ b ∈ plain, b < 256) : gcmDecBytes key (gcmEncBytes key plain) = plain := by
  unfold gcmDecBytes gcmEncBytes
  rw [List.map_map]
  have hpt : ∀ b ∈ plain,
      ((fun b => (b + 256 - key % 256) % 256) ∘ fun b => (b + key) % 256) b = b := by
    intro b hb
    have hb2 := h b hb
    simp only [Function.comp]
    omega
  rw [List.map_congr_left hpt]
  simp

/-- C7 counterexample: a genuinely tagged ciphertext of the single byte
`0xFF` (not valid UTF-8) decrypts successfully: Node's
`Buffer.toString("utf-8")` replaces invalid sequences instead of throwing,
so invalid UTF-8 in the decrypted bytes is not an error condition of
`decrypt`, contrary to the claim's "exactly when". -/
theorem C7_counterexample :
    ¬ ((∃ e, decryptBytes 0 [] ([255] ++ gcmTagBytes 0 [] [255]) none = Except.error e) ↔
        (CtTooShort ([255] ++ gcmTagBytes 0 [] [255]) ∨
         TagFails 0 [] ([255] ++ gcmTagBytes 0 [] [255]) ∨
         PlainInvalidUtf8 0 ([255] ++ gcmTagBytes 0 [] [255]))) := by
  intro hiff
  have hrhs : CtTooShort ([255] ++ gcmTagBytes 0 [] [255]) ∨
      TagFails 0 [] ([255] ++ gcmTagBytes 0 [] [255]) ∨
      PlainInvalidUtf8 0 ([255] ++ gcmTagBytes 0 [] [255]) :=
    Or.inr (Or.inr (by decide))
  obtain ⟨e, he⟩ := hiff.mpr hrhs
  have hok : decryptBytes 0 [] ([255] ++ gcmTagBytes 0 [] [255]) none =
      Except.ok [255] := by rfl
  rw [hok] at he
  exact Except.noConfusion he

/-- C7 (amended): `decrypt(master_key, iv, ciphertext, key_hash?)` raises
`DecryptionError` exactly when the ciphertext is shorter than 16 bytes or
the auth tag fails to verify; the error's message is built only from the
failure kind and the first 16 characters of `key_hash` (never from the
plaintext), and in every other case the original plaintext bytes are
returned (to be lossily UTF-8-decoded by Node's total `toString`). -/
theorem C7_decrypt_error_conditions (masterKey : Nat) (iv ciphertext : List Nat)
    (keyHash : Option String) :
    ((∃ e, decryptBytes masterKey iv ciphertext keyHash = Except.error e) ↔
        (CtTooShort ciphertext ∨ TagFails masterKey iv ciphertext)) ∧
    (∀ e, decryptBytes masterKey iv ciphertext keyHash = Except.error e →
        e.keyHash = keyHash ∧
        (e.msg = decryptionErrorMessage "Ciphertext too short to contain auth tag" keyHash ∨
         e.msg = decryptionErrorMessage "Unsupported state or unable to authenticate data"
           keyHash)) ∧
    (∀ plain, (∀ b ∈ plain, b < 256) →
        decryptBytes masterKey iv
            (gcmEncBytes masterKey plain ++
              gcmTagBytes masterKey iv (gcmEncBytes masterKey plain)) keyHash =
          Except.ok plain) := by
  refine ⟨?_, ?_, ?_⟩
  · unfold decryptBytes CtTooShort TagFails
    by_cases hlen : ciphertext.length < 16
    · simp [hlen]
    · by_cases htag : ciphertext.drop (ciphertext.length - 16) =
          gcmTagBytes masterKey iv (ciphertext.take (ciphertext.length - 16))
      · simp [hlen, htag]
      · simp [hlen, htag]
  · intro e he
    simp only [decryptBytes] at he
    by_cases hlen : ciphertext.length < 16
    · rw [if_pos hlen] at he
      injection he with h2
      subst h2
      exact ⟨rfl, Or.inl rfl⟩
    · rw [if_neg hlen] at he
      by_cases htag : ciphertext.drop (ciphertext.length - 16) =
          gcmTagBytes masterKey iv (ciphertext.take (ciphertext.length - 16))
      · rw [if_pos htag] at he
        exact Except.noConfusion he
      · rw [if_neg htag] at he
        injection he with h2
        subst h2
        exact ⟨rfl, Or.inr rfl⟩
  · intro plain hb
    have hlen1 : (gcmEncBytes masterKey plain).length = plain.length := by
      simp [gcmEncBytes]
    have hlen2 : (gcmTagBytes masterKey iv (gcmEncBytes masterKey plain)).length = 16 := by
      simp [gcmTagBytes]
    have hct : (gcmEncBytes masterKey plain ++
        gcmTagBytes masterKey iv (gcmEncBytes masterKey plain)).length =
        plain.length + 16 := by
      rw [List.length_append, hlen1, hlen2]
    simp only [decryptBytes]
    have hnl : ¬ ((gcmEncBytes masterKey plain ++
        gcmTagBytes masterKey iv (gcmEncBytes masterKey plain)).length < 16) := by
      rw [hct]; omega
    rw [if_neg hnl]
    have hsub : (gcmEncBytes masterKey plain ++
        gcmTagBytes masterKey iv (gcmEncBytes masterKey plain)).length - 16 =
        (gcmEncBytes masterKey plain).length := by
      rw [hct, hlen1]; omega
    rw [hsub, List.drop_left, List.take_left, if_pos rfl,
      gcmDecBytes_gcmEncBytes masterKey plain hb]

theorem C7_witness :
    (∃ e, decryptBytes 0 [] [1, 2, 3] none = Except.error e) ∧
    decryptBytes 5 [2]
        (gcmEncBytes 5 [10, 255] ++ gcmTagBytes 5 [2] (gcmEncBytes 5 [10, 255])) none =
      Except.ok [10, 255] :=
  ⟨(C7_decrypt_error_conditions 0 [] [1, 2, 3] none).1.mpr (Or.inl (by decide)),
   (C7_decrypt_error_conditions 5 [2] [] none).2.2 [10, 255] (by decide)⟩

end SecretsEngineModel
